import Mathlib

/-!
Verification development for the `analyze_hmmer` repository.

The JavaScript sources are shallowly embedded below:
stateful JS `Map` objects become insertion-ordered association lists,
`Array.prototype.sort` (stable in ECMAScript 2019 and later) becomes a
stable insertion sort, numbers become `Nat`, `Int` and `Rat`
(with `Option Rat` modelling scores where `NaN` can arise from
`Number.parseFloat`), and strings become `String` or `List Char`.
-/

/-! ### Insertion-ordered association lists, modelling JS `Map` semantics.
`Map.set` replaces the value in place for an existing key (keeping the
original position) and appends new keys at the end; iteration order is
insertion order. -/

def mapSet {κ α : Type} [DecidableEq κ] (k : κ) (v : α) : List (κ × α) → List (κ × α)
  | [] => [(k, v)]
  | (k', v') :: rest => if k' = k then (k', v) :: rest else (k', v') :: mapSet k v rest

def mapGet {κ α : Type} [DecidableEq κ] (k : κ) : List (κ × α) → Option α
  | [] => none
  | (k', v') :: rest => if k' = k then some v' else mapGet k rest

/-- Appending an element to the list stored under an existing key
(the JS idiom `m.get(k).push(a)`, which mutates the stored array in place). -/
def mapAppendAt {κ α : Type} [DecidableEq κ] (k : κ) (a : α) :
    List (κ × List α) → List (κ × List α)
  | [] => []
  | (k', l) :: rest =>
      if k' = k then (k', l ++ [a]) :: rest else (k', l) :: mapAppendAt k a rest

/-! ### A stable insertion sort, modelling the stable `Array.prototype.sort`.
`insertOrd r x l` places `x` before the first element `y` of `l` with
`r x y = true`; with `r` the non-strict comparison derived from the JS
comparator, `sortOrd` computes exactly the stable sort the comparator induces. -/

def insertOrd {α : Type} (r : α → α → Bool) (x : α) : List α → List α
  | [] => [x]
  | y :: ys => if r x y then x :: y :: ys else y :: insertOrd r x ys

def sortOrd {α : Type} (r : α → α → Bool) : List α → List α
  | [] => []
  | x :: xs => insertOrd r x (sortOrd r xs)

/-! ### String utilities shared by the parsers:
`line.trim()`, `line.startsWith("#")`, `line.trim().split(/\s+/)`,
`Number.parseFloat` and `Number.parseInt(_, 10)`.
`jsParseFloat` parses an optional sign, integer digits and an optional
fractional part (the formats that occur in the parsed columns); a string
with no leading digits yields `none`, the model of `NaN`. -/

def trimL (l : List Char) : List Char :=
  ((l.dropWhile Char.isWhitespace).reverse.dropWhile Char.isWhitespace).reverse

def startsWithHash : List Char → Bool
  | '#' :: _ => true
  | _ => false

def splitWsAux : List Char → List Char → List (List Char)
  | [], acc => if acc = [] then [] else [acc.reverse]
  | c :: cs, acc =>
      if c.isWhitespace then
        if acc = [] then splitWsAux cs [] else acc.reverse :: splitWsAux cs []
      else splitWsAux cs (c :: acc)

def splitWs (l : List Char) : List (List Char) := splitWsAux l []

def digitsToNat (l : List Char) : Nat :=
  l.foldl (fun n c => n * 10 + (c.toNat - '0'.toNat)) 0

def jsParseFloat (l : List Char) : Option Rat :=
  let t := l.dropWhile Char.isWhitespace
  let st : Rat × List Char :=
    match t with
    | '-' :: r => (-1, r)
    | '+' :: r => (1, r)
    | r => (1, r)
  let ip := st.2.takeWhile Char.isDigit
  let rest := st.2.dropWhile Char.isDigit
  let fp : List Char :=
    match rest with
    | '.' :: r => r.takeWhile Char.isDigit
    | _ => []
  if ip = [] ∧ fp = [] then none
  else some (st.1 * ((digitsToNat ip : Rat) + (digitsToNat fp : Rat) / ((10 : Rat) ^ fp.length)))

def jsParseInt (l : List Char) : Option Int :=
  let t := l.dropWhile Char.isWhitespace
  let st : Int × List Char :=
    match t with
    | '-' :: r => (-1, r)
    | '+' :: r => (1, r)
    | r => (1, r)
  let ds := st.2.takeWhile Char.isDigit
  if ds = [] then none else some (st.1 * (digitsToNat ds : Int))

/-! ### Canonicalization of target identifiers.
`matches_pipeline.js` line 97 uses `target_name.split("_frame=")[0]`
(the prefix before the first occurrence of `_frame=`); `main.js` lines
252-255 use `target_name.replace(/_frame=-?\d+/, "").trim()` (removal of
the first occurrence of `_frame=` followed by an optionally signed integer). -/

def framePat : List Char := "_frame=".toList

def frameSplitHead : List Char → List Char
  | [] => []
  | c :: cs => if (c :: cs).take 7 = framePat then [] else c :: frameSplitHead cs

/-- The canonicalization of `matches_pipeline.js`: `split("_frame=")[0]`. -/
def canonSplit (s : String) : String := ⟨frameSplitHead s.toList⟩

/-- Length of the match of the regex `_frame=-?\d+` at the head of `l`,
if it matches there. -/
def matchFrameAt (l : List Char) : Option Nat :=
  if l.take 7 = framePat then
    match l.drop 7 with
    | '-' :: r =>
        let ds := r.takeWhile Char.isDigit
        if ds = [] then none else some (8 + ds.length)
    | r =>
        let ds := r.takeWhile Char.isDigit
        if ds = [] then none else some (7 + ds.length)
  else none

/-- Removal of the first match of `_frame=-?\d+` (the `.replace` call of
`mergeData`, which replaces only the first occurrence). -/
def stripFrameOnce : List Char → List Char
  | [] => []
  | c :: cs =>
      match matchFrameAt (c :: cs) with
      | some n => (c :: cs).drop n
      | none => c :: stripFrameOnce cs

/-- The canonicalization of `main.js` `mergeData`:
`replace(/_frame=-?\d+/, "").trim()`. -/
def canonMerge (s : String) : String := ⟨trimL (stripFrameOnce s.toList)⟩

/-! ### part_000 `extractBestHMMHits` (lines 166-236).
A parsed domtblout data row keeps target name, model length (`qlen`,
column 5), per-domain bit score (column 13), the model-aligned span
(columns 15-16) and the target-aligned span (columns 17-18). -/

namespace P0

structure Entry where
  target_name : String
  qlen : Int
  score : Rat
  hmm_from : Int
  hmm_to : Int
  ali_from : Int
  ali_to : Int
  deriving DecidableEq, Repr

/-- Fraction of the model covered by the hit:
`(hmm_to - hmm_from + 1) / qlen` (part_000 lines 203-204). -/
def covFrac (e : Entry) : Rat := ((e.hmm_to - e.hmm_from + 1 : Int) : Rat) / ((e.qlen : Int) : Rat)

/-- One loop iteration of part_000 lines 202-210: entries below the coverage
threshold are skipped; surviving entries are written to the map keyed by the
raw `target_name` with `bestEntries.set(entry.target_name, entry)` —
note the source performs no score comparison before the `set`. -/
def step (coverage : Rat) (m : List (String × Entry)) (e : Entry) : List (String × Entry) :=
  if covFrac e < coverage then m else mapSet e.target_name e m

/-- The `bestEntries` map produced by the parsing loop of
`extractBestHMMHits` in part_000, fed with the already-parsed entries. -/
def bestEntries (coverage : Rat) (entries : List Entry) : List (String × Entry) :=
  entries.foldl (step coverage) []

/-- The same accumulation with no coverage filter at all, used to state that
the filter is applied before candidacy. -/
def bestEntriesNF (entries : List Entry) : List (String × Entry) :=
  entries.foldl (fun m e => mapSet e.target_name e m) []

end P0

/-! ### main.js `parseFullHMMOutput` (lines 108-162).
Data lines keep target name, full-sequence bit score (column 7), e-value
(column 6) and the target-aligned span (columns 17-18).  Fields are parsed
with `Number.parseFloat` and `Number.parseInt`, which yield `NaN`
(modelled as `none`) on unparseable input instead of raising. -/

namespace MJ

structure Entry where
  target_name : String
  score : Option Rat
  e_value : Option Rat
  ali_from : Option Int
  ali_to : Option Int
  deriving DecidableEq, Repr

def parseLine (l : List Char) : Option Entry :=
  if startsWithHash l then none
  else if trimL l = [] then none
  else if (splitWs (trimL l)).length < 23 then none
  else some
    { target_name := ⟨(splitWs (trimL l)).getD 0 []⟩
      score := jsParseFloat ((splitWs (trimL l)).getD 7 [])
      e_value := jsParseFloat ((splitWs (trimL l)).getD 6 [])
      ali_from := jsParseInt ((splitWs (trimL l)).getD 17 [])
      ali_to := jsParseInt ((splitWs (trimL l)).getD 18 []) }

/-- The JS `<` comparison on numbers: any comparison involving `NaN`
is false. -/
def jsLt : Option Rat → Option Rat → Bool
  | some a, some b => decide (a < b)
  | _, _ => false

/-- One iteration of the grouping loop of main.js lines 141-151: the first
record for a target is stored; afterwards a record replaces the incumbent
exactly when `entryForTarget.score < entry.score`. -/
def step (m : List (String × Entry)) (e : Entry) : List (String × Entry) :=
  match mapGet e.target_name m with
  | none => mapSet e.target_name e m
  | some inc => if jsLt inc.score e.score then mapSet e.target_name e m else m

def bestEntries (entries : List Entry) : List (String × Entry) :=
  entries.foldl step []

def parseFullHMMOutput (lines : List (List Char)) : List Entry :=
  (bestEntries (lines.filterMap parseLine)).map Prod.snd

end MJ

/-! ### matches_pipeline.js `levenshteinDistance` (lines 203-233) and
`findClosestMatches` (lines 243-315).
The distance is the classic dynamic program: `dp[i][0] = i`, `dp[0][j] = j`,
`dp[i][j] = min(dp[i-1][j] + 1, dp[i][j-1] + 1, dp[i-1][j-1] + cost)` where
`cost` is 0 when `a[i-1] == b[j-1]` and 1 otherwise; it is computed here
row by row (`prev` is row `i-1`, `diag` is `dp[i-1][j-1]`, `left` is
`dp[i][j-1]`), which evaluates the same recurrence as the full matrix of
the source. -/

namespace MP

def levRowGo (c : Char) : List Char → List Nat → Nat → Nat → List Nat
  | [], _, _, _ => []
  | _ :: _, [], _, _ => []
  | b :: bs, p :: ps, diag, left =>
      let cost : Nat := if c = b then 0 else 1
      let v := min (min (p + 1) (left + 1)) (diag + cost)
      v :: levRowGo c bs ps p v

def levNextRow (c : Char) (b : List Char) (prev : List Nat) : List Nat :=
  match prev with
  | [] => []
  | p0 :: ps => (p0 + 1) :: levRowGo c b ps p0 (p0 + 1)

def levenshteinDistance (a b : List Char) : Nat :=
  (a.foldl (fun prev c => levNextRow c b prev) (List.range (b.length + 1))).getLastD 0

/-- A row of the reference CSV table, with the sequence column value and the
`Count`, `Total_Count` and `Frequency` columns (converted with `Number(...)`
by the source). -/
structure RefRow where
  seq : String
  count : Rat
  total_count : Rat
  frequency : Rat
  deriving DecidableEq, Repr

/-- A match candidate as built in `findClosestMatches` lines 285-293. -/
structure Cand where
  Original_Query_Seq : Option String
  Trimmed_Query_Seq : String
  Matched_Seq : String
  Levenshtein_Dist : Nat
  Count : Rat
  Total_Count : Rat
  Frequency : Rat
  deriving DecidableEq, Repr

/-- The comparison `dist <= maxLevenshteinDistance`, whose default bound is
`Infinity` (modelled as `none`). -/
def ldLe (d : Nat) : Option Nat → Bool
  | none => true
  | some m => decide (d ≤ m)

/-- The body of the `records.map(...)` callback of lines 275-296: rows with
a falsy (empty) sequence value are skipped, the edit distance is computed,
and a candidate is produced when the distance is within the bound. -/
def candFor (orig : Option String) (q : String) (maxLD : Option Nat) (row : RefRow) :
    Option Cand :=
  if row.seq = "" then none
  else if ldLe (levenshteinDistance q.toList row.seq.toList) maxLD then
    some { Original_Query_Seq := orig, Trimmed_Query_Seq := q, Matched_Seq := row.seq,
           Levenshtein_Dist := levenshteinDistance q.toList row.seq.toList,
           Count := row.count, Total_Count := row.total_count,
           Frequency := row.frequency }
  else none

/-- The comparator `a.Levenshtein_Dist - b.Levenshtein_Dist` of line 306,
as the non-strict order its stable sort realizes. -/
def candLe (a b : Cand) : Bool := decide (a.Levenshtein_Dist ≤ b.Levenshtein_Dist)

/-- The candidate list computed for one trimmed query: map, filter by the
distance bound, then stable sort ascending by distance. -/
def matchesFor (records : List RefRow) (orig : Option String) (q : String)
    (maxLD : Option Nat) : List Cand :=
  sortOrd candLe (records.filterMap (candFor orig q maxLD))

/-- `Array.prototype.indexOf`: index of the first occurrence. -/
def idxOf (s : String) : List String → Nat
  | [] => 0
  | x :: xs => if x = s then 0 else idxOf s xs + 1

/-- The query loop of `findClosestMatches` lines 270-309: for each trimmed
query (in order), the original query is looked up at
`queries.trimmed.indexOf(querySequence)` — always the first position of that
sequence — and `matchesMap.set(querySequence, matches)` stores the result. -/
def findClosestMatches (records : List RefRow) (orig trimmed : List String)
    (maxLD : Option Nat) : List (String × List Cand) :=
  trimmed.foldl
    (fun m q => mapSet q (matchesFor records (orig.get? (idxOf q trimmed)) q maxLD) m) []

end MP

/-! ### part_000 `countSeqs` (lines 349-434).
The first loop walks `seqMap` in insertion order.  For each target it
snapshots `missingModels = new Set(allModels)` before reading the target's
entries, then stores each entry's sequence by model (later duplicates
overwrite), adds the models to the run-wide `allModels` set and removes them
from the snapshot; the target's per-model map is kept only when the snapshot
was emptied.  The combination key is then built from `allModels` in its
insertion order, `Map.get` of an absent model rendering as the string
`undefined`.  Counting tallies keys in first-occurrence order, and the rows
are stable-sorted by descending count with `Frequency = count / totalCount`. -/

namespace P0

structure SeqEntry where
  model : String
  sequence : String
  deriving DecidableEq, Repr

abbrev Assoc := List (String × String)

structure AggState where
  allModels : List String
  targetSequences : List (String × List Assoc)
  deriving DecidableEq, Repr

/-- `Set.add` on an insertion-ordered set. -/
def addUnique (x : String) (l : List String) : List String :=
  if x ∈ l then l else l ++ [x]

def beforeBar : List Char → List Char
  | [] => []
  | c :: cs => if c = '|' then [] else c :: beforeBar cs

/-- `target_name.replace(/\|.*$/, "")`: the prefix before the first `|`. -/
def trimTargetName (s : String) : String := ⟨beforeBar s.toList⟩

/-- One iteration of the target loop, part_000 lines 355-384. -/
def processTarget (st : AggState) (t : String × List SeqEntry) : AggState :=
  let trimmed := trimTargetName t.1
  let ts0 := if (mapGet trimmed st.targetSequences).isSome then st.targetSequences
             else mapSet trimmed [] st.targetSequences
  let modelSequences : Assoc := t.2.foldl (fun m e => mapSet e.model e.sequence m) []
  let entryModels := t.2.map SeqEntry.model
  let missingModels := st.allModels.filter (fun m => !decide (m ∈ entryModels))
  let allModels' := t.2.foldl (fun ms e => addUnique e.model ms) st.allModels
  if missingModels = [] then
    { allModels := allModels', targetSequences := mapAppendAt trimmed modelSequences ts0 }
  else
    { allModels := allModels', targetSequences := ts0 }

def aggStateOf (seqMap : List (String × List SeqEntry)) : AggState :=
  seqMap.foldl processTarget { allModels := [], targetSequences := [] }

def allModelsOf (seqMap : List (String × List SeqEntry)) : List String :=
  (aggStateOf seqMap).allModels

/-- Template interpolation of `sequences.get(model)`: an absent key prints
as `undefined`. -/
def jsGetA (m : Assoc) (k : String) : String :=
  match mapGet k m with
  | some v => v
  | none => "undefined"

/-- The combination key of lines 396-398:
the strings `model:sequence` joined with `|`, over `allModelNames`. -/
def seqKey (names : List String) (m : Assoc) : String :=
  String.intercalate "|" (names.map (fun n => n ++ ":" ++ jsGetA m n))

/-- All (key, per-model map) pairs fed to the counting loop, in iteration
order of `targetSequences` and of each target's list. -/
def combosOf (seqMap : List (String × List SeqEntry)) : List (String × Assoc) :=
  ((aggStateOf seqMap).targetSequences.map
    (fun p => p.2.map (fun a => (seqKey (aggStateOf seqMap).allModels a, a)))).flatten

def keysOf (seqMap : List (String × List SeqEntry)) : List String :=
  (combosOf seqMap).map Prod.fst

/-- `seqCounts` update of lines 400-407: a fresh key is appended with the
current per-model map and count 1; an existing key keeps its stored map and
its count is incremented. -/
def tallyAdd (k : String) (a : Assoc) :
    List (String × Assoc × Nat) → List (String × Assoc × Nat)
  | [] => [(k, a, 1)]
  | e :: rest => if e.1 = k then (e.1, e.2.1, e.2.2 + 1) :: rest else e :: tallyAdd k a rest

def tally (combos : List (String × Assoc)) : List (String × Assoc × Nat) :=
  combos.foldl (fun m c => tallyAdd c.1 c.2 m) []

/-- `Array.from(seqCounts.values())`. -/
def valsOf (combos : List (String × Assoc)) : List (Assoc × Nat) :=
  (tally combos).map Prod.snd

/-- `totalCount`, the sum of all counts (lines 411-414). -/
def totalOf (combos : List (String × Assoc)) : Nat :=
  ((valsOf combos).map Prod.snd).sum

/-- `model.replace(/\.[^.]+$/, "")`: removal of a final dot-extension. -/
def stripExtL (l : List Char) : List Char :=
  let r := l.reverse
  let suff := r.takeWhile (fun c => c != '.')
  match r.drop suff.length with
  | '.' :: rest2 => if suff = [] then l else rest2.reverse
  | _ => l

def stripExt (s : String) : String := ⟨stripExtL s.toList⟩

structure CountRow where
  sequences : Assoc
  Count : Nat
  Total_Count : Nat
  Frequency : Rat
  deriving DecidableEq, Repr

/-- The row construction of lines 419-429. -/
def mkRow (total : Nat) (v : Assoc × Nat) : CountRow :=
  { sequences := v.1.map (fun p => (stripExt p.1, p.2))
    Count := v.2
    Total_Count := total
    Frequency := (v.2 : Rat) / (total : Rat) }

/-- The comparator `b.count - a.count` of line 418, as the non-strict order
its stable sort realizes. -/
def countDesc (a b : Assoc × Nat) : Bool := decide (b.2 ≤ a.2)

/-- Lines 411-429: total, stable descending sort, row construction. -/
def finalizeCounts (combos : List (String × Assoc)) : List CountRow :=
  (sortOrd countDesc (valsOf combos)).map (mkRow (totalOf combos))

/-- The full `countSeqs` of part_000. -/
def countSeqs (seqMap : List (String × List SeqEntry)) : List CountRow :=
  finalizeCounts (combosOf seqMap)

end P0

/-! ### Concrete inputs used in the claim theorems and witnesses. -/

/-- C1 failing run: two coverage-passing hits for the same raw target name,
the higher score (5.0) arriving first. -/
def c1hits : List P0.Entry :=
  [⟨"t", 10, 5, 1, 10, 1, 30⟩, ⟨"t", 10, 3, 1, 10, 1, 20⟩]

/-- C4 failing run: two coverage-passing hits for the same target with equal
scores; the first-seen record differs from the last in its alignment span. -/
def c4hits : List P0.Entry :=
  [⟨"t2", 10, 5, 1, 10, 1, 30⟩, ⟨"t2", 10, 5, 1, 10, 1, 40⟩]

/-- C2 failing run: read `r1` carries only model `A`; read `r2`, processed
later, carries models `A` and `B` and thereby makes `B` an observed model of
the run. -/
def c2seqMap : List (String × List P0.SeqEntry) :=
  [("r1|b1", [⟨"A", "s1"⟩]),
   ("r2|b2", [⟨"A", "s2"⟩, ⟨"B", "s3"⟩])]

/-- C3: the same single (read, batch) with its two per-model sequences
delivered in the order model `A` then model `B` ... -/
def c3seqMapX : List (String × List P0.SeqEntry) :=
  [("r|b", [⟨"A", "sa"⟩, ⟨"B", "sb"⟩])]

/-- ... and in the order model `B` then model `A`. -/
def c3seqMapY : List (String × List P0.SeqEntry) :=
  [("r|b", [⟨"B", "sb"⟩, ⟨"A", "sa"⟩])]

/-- C3 witness run: two reads carrying the same model-to-sequence
assignments, recorded in different entry orders. -/
def c3seqMapW : List (String × List P0.SeqEntry) :=
  [("r1|b", [⟨"A", "sa"⟩, ⟨"B", "sb"⟩]),
   ("r2|b", [⟨"B", "sb"⟩, ⟨"A", "sa"⟩])]

/-- C6 witness input: key `k1` occurs twice, key `k2` once. -/
def c6combos : List (String × P0.Assoc) :=
  [("k1", [("A", "x")]), ("k1", [("A", "x")]), ("k2", [("B", "y")])]

/-- C7 scenario reference table: rows `ACD` (count 3) and `ACE` (count 1). -/
def c7rows : List MP.RefRow :=
  [⟨"ACD", 3, 4, 1⟩, ⟨"ACE", 1, 4, 1⟩]

/-- C9 witness line: 23 whitespace-separated fields whose score field
(index 7) is the unparseable token `xx`. -/
def c9line : List Char :=
  "t0 a b c d e f xx h i j k l m n o p q 7 9 u v w".toList

/-- C9 witness: a parsed record whose score is `NaN`. -/
def c9nan : MJ.Entry := ⟨"t9", none, none, some 1, some 2⟩

/-- C9 witness: an incumbent with a real score for the same target. -/
def c9inc : MJ.Entry := ⟨"t9", some 5, none, some 1, some 2⟩

/-- C10 witness reference table. -/
def c10rows : List MP.RefRow := [⟨"ACD", 3, 4, 1⟩]

/-- C10 witness original (untrimmed) queries. -/
def c10orig : List String := ["O1", "O2"]

/-- C10 witness trimmed queries: the same sequence at two positions. -/
def c10trimmed : List String := ["Q", "Q"]

/-! ## Theorems -/

theorem P0.bestEntries_eq_filter (coverage : Rat) (entries : List P0.Entry) :
    P0.bestEntries coverage entries =
      P0.bestEntriesNF (entries.filter (fun e => !decide (P0.covFrac e < coverage))) := by
  suffices h : ∀ (m : List (String × P0.Entry)),
      entries.foldl (P0.step coverage) m =
        (entries.filter (fun e => !decide (P0.covFrac e < coverage))).foldl
          (fun m e => mapSet e.target_name e m) m from h []
  induction entries with
  | nil => intro m; rfl
  | cons e es ih =>
      intro m
      by_cases h : P0.covFrac e < coverage
      · simp [List.foldl_cons, P0.step, h, List.filter_cons, ih]
      · simp [List.foldl_cons, P0.step, h, List.filter_cons, ih]

/-- C1. Best-Hit Selector maximum selection fails in part_000: its
`extractBestHMMHits` writes every coverage-passing entry with
`bestEntries.set(entry.target_name, entry)` and never compares scores, so for
two hits on target `t` with scores 5 then 3 the retained record has score 3,
strictly below the maximum of the input scores. -/
theorem c1_part000_keeps_last_not_max :
    P0.bestEntries (1/2) c1hits = [("t", ⟨"t", 10, 3, 1, 10, 1, 20⟩)] ∧
      (⟨"t", 10, 3, 1, 10, 1, 20⟩ : P0.Entry).score <
        (⟨"t", 10, 5, 1, 10, 1, 30⟩ : P0.Entry).score := by
  constructor
  · norm_num [P0.bestEntries, P0.step, P0.covFrac, mapSet, c1hits]
  · norm_num

/-- C4. Tie-breaking stability fails in part_000: on equal scores (indeed on
any later coverage-passing record) the later record replaces the incumbent,
so the last-seen record is kept instead of the first-seen one. -/
theorem c4_part000_tie_keeps_last :
    P0.bestEntries 0 c4hits = [("t2", ⟨"t2", 10, 5, 1, 10, 1, 40⟩)] ∧
      (⟨"t2", 10, 5, 1, 10, 1, 40⟩ : P0.Entry) ≠ ⟨"t2", 10, 5, 1, 10, 1, 30⟩ ∧
      (⟨"t2", 10, 5, 1, 10, 1, 30⟩ : P0.Entry).score =
        (⟨"t2", 10, 5, 1, 10, 1, 40⟩ : P0.Entry).score := by
  refine ⟨?_, by decide, rfl⟩
  norm_num [P0.bestEntries, P0.step, P0.covFrac, mapSet, c4hits]

/-- C5. The coverage filter of part_000 (lines 202-206): the accumulated map
equals the unfiltered accumulation of exactly those entries with
`(hmm_to - hmm_from + 1) / qlen ≥ coverage`, i.e. low-coverage entries are
removed from candidacy before any map update; and in the spec scenario with
threshold 0.5 and model length 10, the span [1,6] (coverage 0.6) is retained
while the span [1,4] (coverage 0.4) is dropped. -/
theorem c5_coverage_filter :
    (∀ (coverage : Rat) (entries : List P0.Entry),
        P0.bestEntries coverage entries =
          P0.bestEntriesNF (entries.filter (fun e => !decide (P0.covFrac e < coverage)))) ∧
      P0.bestEntries (1/2)
          [⟨"tA", 10, 12, 1, 6, 1, 30⟩, ⟨"tB", 10, 99, 1, 4, 1, 30⟩] =
        [("tA", ⟨"tA", 10, 12, 1, 6, 1, 30⟩)] := by
  refine ⟨P0.bestEntries_eq_filter, ?_⟩
  norm_num [P0.bestEntries, P0.step, P0.covFrac, mapSet]

/-! ### Lemmas about the stable sort. -/

theorem insertOrd_perm {α : Type} (r : α → α → Bool) (x : α) (l : List α) :
    List.Perm (insertOrd r x l) (x :: l) := by
  induction l with
  | nil => exact List.Perm.refl _
  | cons y ys ih =>
      by_cases h : r x y = true
      · simp [insertOrd, h]
      · simp only [insertOrd, h, if_false]
        exact (ih.cons y).trans (List.Perm.swap x y ys)

theorem sortOrd_perm {α : Type} (r : α → α → Bool) (l : List α) :
    List.Perm (sortOrd r l) l := by
  induction l with
  | nil => exact List.Perm.refl _
  | cons x xs ih => exact (insertOrd_perm r x (sortOrd r xs)).trans (ih.cons x)

theorem mem_insertOrd {α : Type} (r : α → α → Bool) (x a : α) (l : List α) :
    a ∈ insertOrd r x l ↔ a = x ∨ a ∈ l := by
  rw [(insertOrd_perm r x l).mem_iff, List.mem_cons]

theorem mem_sortOrd {α : Type} (r : α → α → Bool) (a : α) (l : List α) :
    a ∈ sortOrd r l ↔ a ∈ l := (sortOrd_perm r l).mem_iff

theorem pairwise_insertOrd {α : Type} (r : α → α → Bool)
    (htot : ∀ a b, r a b = true ∨ r b a = true)
    (htr : ∀ a b c, r a b = true → r b c = true → r a c = true)
    (x : α) (l : List α) (hl : l.Pairwise (fun a b => r a b = true)) :
    (insertOrd r x l).Pairwise (fun a b => r a b = true) := by
  induction l with
  | nil => simp [insertOrd]
  | cons y ys ih =>
      rcases List.pairwise_cons.mp hl with ⟨hy, hys⟩
      by_cases h : r x y = true
      · simp only [insertOrd, h, if_true]
        refine List.pairwise_cons.mpr ⟨?_, hl⟩
        intro z hz
        rcases List.mem_cons.mp hz with rfl | hz'
        · exact h
        · exact htr x y z h (hy z hz')
      · simp only [insertOrd, h, if_false]
        refine List.pairwise_cons.mpr ⟨?_, ih hys⟩
        intro z hz
        rcases (mem_insertOrd r x z ys).mp hz with rfl | hz'
        · rcases htot z y with hzy | hyz
          · exact absurd hzy h
          · exact hyz
        · exact hy z hz'

theorem pairwise_sortOrd {α : Type} (r : α → α → Bool)
    (htot : ∀ a b, r a b = true ∨ r b a = true)
    (htr : ∀ a b c, r a b = true → r b c = true → r a c = true)
    (l : List α) : (sortOrd r l).Pairwise (fun a b => r a b = true) := by
  induction l with
  | nil => simp [sortOrd]
  | cons x xs ih => exact pairwise_insertOrd r htot htr x _ ih

theorem filter_insertOrd_neg {α : Type} (r : α → α → Bool) (p : α → Bool) (x : α)
    (hp : p x = false) (l : List α) :
    (insertOrd r x l).filter p = l.filter p := by
  induction l with
  | nil => simp [insertOrd, List.filter, hp]
  | cons y ys ih =>
      by_cases h : r x y = true
      · simp [insertOrd, h, List.filter, hp]
      · simp only [insertOrd, h, if_false]
        cases hy : p y <;> simp [List.filter, hy, ih]

theorem filter_insertOrd_pos {α : Type} (r : α → α → Bool) (p : α → Bool) (x : α)
    (hp : p x = true) (hkey : ∀ y, r x y = false → p y = false) (l : List α) :
    (insertOrd r x l).filter p = x :: l.filter p := by
  induction l with
  | nil => simp [insertOrd, List.filter, hp]
  | cons y ys ih =>
      by_cases h : r x y = true
      · simp [insertOrd, h, List.filter, hp]
      · have hy : p y = false := hkey y (by simpa using h)
        simp only [insertOrd, h, if_false]
        simp [List.filter, hy, ih]

theorem filter_sortOrd {α : Type} (r : α → α → Bool) (p : α → Bool)
    (hkey : ∀ x y, p x = true → r x y = false → p y = false) (l : List α) :
    (sortOrd r l).filter p = l.filter p := by
  induction l with
  | nil => rfl
  | cons x xs ih =>
      by_cases hp : p x = true
      · rw [sortOrd, filter_insertOrd_pos r p x hp (fun y => hkey x y hp) _, ih]
        simp [List.filter, hp]
      · have hp' : p x = false := by simpa using hp
        rw [sortOrd, filter_insertOrd_neg r p x hp' _, ih]
        simp [List.filter, hp']

/-! ### Lemmas about the insertion-ordered maps. -/

theorem mapGet_set_self {κ α : Type} [DecidableEq κ] (k : κ) (v : α) (m : List (κ × α)) :
    mapGet k (mapSet k v m) = some v := by
  induction m with
  | nil => simp [mapSet, mapGet]
  | cons e rest ih =>
      by_cases h : e.1 = k
      · simp [mapSet, mapGet, h]
      · simp [mapSet, mapGet, h, ih]

theorem mapGet_set_ne {κ α : Type} [DecidableEq κ] {k k' : κ} (h : k' ≠ k) (v : α)
    (m : List (κ × α)) : mapGet k' (mapSet k v m) = mapGet k' m := by
  induction m with
  | nil =>
      have hkk : ¬ (k = k') := fun he => h he.symm
      simp [mapSet, mapGet, hkk]
  | cons e rest ih =>
      obtain ⟨a, b⟩ := e
      by_cases hak : a = k
      · have hak' : ¬ (a = k') := fun he => h (he.symm.trans hak)
        have hkk' : ¬ (k = k') := fun he => h he.symm
        simp [mapSet, mapGet, hak, hak', hkk']
      · by_cases hak' : a = k'
        · simp [mapSet, mapGet, hak, hak', h]
        · simp [mapSet, mapGet, hak, hak', ih]

theorem mapGet_fold_not_mem {κ α : Type} [DecidableEq κ] (f : κ → α) {s : κ} :
    ∀ {qs : List κ}, s ∉ qs → ∀ (m0 : List (κ × α)),
      mapGet s (qs.foldl (fun m q => mapSet q (f q) m) m0) = mapGet s m0 := by
  intro qs
  induction qs with
  | nil => intro _ m0; rfl
  | cons q rest ih =>
      intro h m0
      have hne : s ≠ q := fun he => h (he ▸ List.mem_cons_self q rest)
      have hrest : s ∉ rest := fun hr => h (List.mem_cons_of_mem q hr)
      rw [List.foldl_cons, ih hrest, mapGet_set_ne hne]

theorem mapGet_fold_mem {κ α : Type} [DecidableEq κ] (f : κ → α) {s : κ} :
    ∀ {qs : List κ}, s ∈ qs → ∀ (m0 : List (κ × α)),
      mapGet s (qs.foldl (fun m q => mapSet q (f q) m) m0) = some (f s) := by
  intro qs
  induction qs with
  | nil => intro h; exact absurd h (List.not_mem_nil s)
  | cons q rest ih =>
      intro h m0
      by_cases hr : s ∈ rest
      · rw [List.foldl_cons, ih hr]
      · have hq : s = q := by
          rcases List.mem_cons.mp h with h' | h'
          · exact h'
          · exact absurd h' hr
        subst hq
        rw [List.foldl_cons, mapGet_fold_not_mem f hr, mapGet_set_self]

theorem keys_mapSet_subset {κ α : Type} [DecidableEq κ] (k : κ) (v : α) (m : List (κ × α)) :
    ∀ x ∈ (mapSet k v m).map Prod.fst, x = k ∨ x ∈ m.map Prod.fst := by
  induction m with
  | nil => intro x hx; simp [mapSet] at hx; exact Or.inl hx
  | cons e rest ih =>
      intro x hx
      by_cases h : e.1 = k
      · simp only [mapSet, h, if_true, List.map_cons, List.mem_cons] at hx
        rcases hx with rfl | hx
        · exact Or.inl rfl
        · exact Or.inr (List.mem_cons_of_mem _ hx)
      · simp only [mapSet, h, if_false, List.map_cons, List.mem_cons] at hx
        rcases hx with rfl | hx
        · exact Or.inr (List.mem_cons_self _ _)
        · rcases ih x hx with h' | h'
          · exact Or.inl h'
          · exact Or.inr (List.mem_cons_of_mem _ h')

theorem keys_mapSet_nodup {κ α : Type} [DecidableEq κ] (k : κ) (v : α) (m : List (κ × α))
    (h : (m.map Prod.fst).Nodup) : ((mapSet k v m).map Prod.fst).Nodup := by
  induction m with
  | nil => simp [mapSet]
  | cons e rest ih =>
      rcases List.pairwise_cons.mp h with ⟨he, hrest⟩
      by_cases hk : e.1 = k
      · simpa [mapSet, hk] using h
      · simp only [mapSet, hk, if_false, List.map_cons]
        refine List.pairwise_cons.mpr ⟨?_, ih hrest⟩
        intro x hx
        rcases keys_mapSet_subset k v rest x hx with rfl | hx'
        · exact fun he' => hk he'
        · exact he x hx'

theorem keys_fold_nodup {κ α : Type} [DecidableEq κ] (f : κ → α) :
    ∀ (qs : List κ) (m0 : List (κ × α)), (m0.map Prod.fst).Nodup →
      ((qs.foldl (fun m q => mapSet q (f q) m) m0).map Prod.fst).Nodup := by
  intro qs
  induction qs with
  | nil => intro m0 h; exact h
  | cons q rest ih =>
      intro m0 h
      rw [List.foldl_cons]
      exact ih _ (keys_mapSet_nodup q (f q) m0 h)

theorem mapGet_some_mem_keys {κ α : Type} [DecidableEq κ] {k : κ} {v : α} :
    ∀ {m : List (κ × α)}, mapGet k m = some v → k ∈ m.map Prod.fst := by
  intro m
  induction m with
  | nil => intro h; simp [mapGet] at h
  | cons e rest ih =>
      intro h
      by_cases he : e.1 = k
      · exact he ▸ List.mem_cons_self _ _
      · simp only [mapGet, he, if_false] at h
        exact List.mem_cons_of_mem _ (ih h)

/-! ### Lemmas about `Array.prototype.indexOf`. -/

theorem idxOf_get? {s : String} : ∀ {l : List String}, s ∈ l →
    l.get? (MP.idxOf s l) = some s := by
  intro l
  induction l with
  | nil => intro h; exact absurd h (List.not_mem_nil s)
  | cons x xs ih =>
      intro h
      by_cases hx : x = s
      · simp [MP.idxOf, hx]
      · have hs : s ∈ xs := by
          rcases List.mem_cons.mp h with h' | h'
          · exact absurd h'.symm hx
          · exact h'
        simp only [MP.idxOf, hx, if_false, List.get?_cons_succ]
        exact ih hs

theorem idxOf_lt_ne {s : String} : ∀ {l : List String} {k : Nat}, k < MP.idxOf s l →
    l.get? k ≠ some s := by
  intro l
  induction l with
  | nil => intro k hk; simp [MP.idxOf] at hk
  | cons x xs ih =>
      intro k hk
      by_cases hx : x = s
      · simp [MP.idxOf, hx] at hk
      · cases k with
        | zero => simpa using fun he => hx he
        | succ k' =>
            have hk' : k' < MP.idxOf s xs := by
              simpa [MP.idxOf, hx, Nat.succ_lt_succ_iff] using hk
            simpa using ih hk'

theorem idxOf_le {s : String} : ∀ {l : List String} {i : Nat}, l.get? i = some s →
    MP.idxOf s l ≤ i := by
  intro l i h
  by_contra hlt
  exact idxOf_lt_ne (Nat.lt_of_not_le hlt) h

/-! ### Lemmas about the match candidates. -/

theorem candFor_some {orig : Option String} {q : String} {maxLD : Option Nat}
    {row : MP.RefRow} {c : MP.Cand} (h : MP.candFor orig q maxLD row = some c) :
    c.Original_Query_Seq = orig ∧ MP.ldLe c.Levenshtein_Dist maxLD = true := by
  unfold MP.candFor at h
  split at h
  · exact Option.noConfusion h
  · split at h
    next hld =>
      injection h with h2
      subst h2
      exact ⟨rfl, hld⟩
    next => exact Option.noConfusion h

theorem candLe_total (a b : MP.Cand) : MP.candLe a b = true ∨ MP.candLe b a = true := by
  simp only [MP.candLe, decide_eq_true_eq]
  exact Nat.le_total _ _

theorem candLe_trans (a b c : MP.Cand) (h1 : MP.candLe a b = true) (h2 : MP.candLe b c = true) :
    MP.candLe a c = true := by
  simp only [MP.candLe, decide_eq_true_eq] at h1 h2 ⊢
  exact Nat.le_trans h1 h2

/-- C7. Approximate Matcher output: every returned candidate respects the
distance bound (rows whose distance exceeds it are excluded); the candidate
list is sorted non-decreasing by edit distance; among candidates of equal
distance the reference table's row order is preserved (the list restricted to
any fixed distance equals the unsorted row-order candidate list so
restricted); and in the spec scenario (rows `ACD` and `ACE`, query `ACD`,
threshold 1) the result is `ACD` at distance 0 then `ACE` at distance 1. -/
theorem c7_find_closest_matches :
    (∀ (records : List MP.RefRow) (orig : Option String) (q : String) (maxLD : Option Nat),
        (∀ c ∈ MP.matchesFor records orig q maxLD,
            MP.ldLe c.Levenshtein_Dist maxLD = true) ∧
        (MP.matchesFor records orig q maxLD).Pairwise
          (fun a b => a.Levenshtein_Dist ≤ b.Levenshtein_Dist) ∧
        (∀ d, (MP.matchesFor records orig q maxLD).filter
              (fun c => decide (c.Levenshtein_Dist = d)) =
            (records.filterMap (MP.candFor orig q maxLD)).filter
              (fun c => decide (c.Levenshtein_Dist = d)))) ∧
      (MP.matchesFor c7rows (some "ACD") "ACD" (some 1)).map
          (fun c => (c.Matched_Seq, c.Levenshtein_Dist)) = [("ACD", 0), ("ACE", 1)] := by
  constructor
  · intro records orig q maxLD
    refine ⟨?_, ?_, ?_⟩
    · intro c hc
      rw [MP.matchesFor, mem_sortOrd] at hc
      rcases List.mem_filterMap.mp hc with ⟨row, _, hrow⟩
      exact (candFor_some hrow).2
    · exact (pairwise_sortOrd MP.candLe candLe_total candLe_trans _).imp
        (fun h => of_decide_eq_true h)
    · intro d
      refine filter_sortOrd MP.candLe _ ?_ _
      intro x y hx hxy
      simp only [MP.candLe, decide_eq_true_eq, decide_eq_false_iff_not] at hx hxy ⊢
      omega
  · decide

/-- Witness for C7: in the scenario run, the `ACD` candidate at distance 0 is
a member of the output, and the bound conjunct of the theorem applies to it. -/
theorem c7_find_closest_matches_witness :
    (⟨some "ACD", "ACD", "ACD", 0, 3, 4, 1⟩ : MP.Cand) ∈
        MP.matchesFor c7rows (some "ACD") "ACD" (some 1) ∧
      MP.ldLe (⟨some "ACD", "ACD", "ACD", 0, 3, 4, 1⟩ : MP.Cand).Levenshtein_Dist
        (some 1) = true :=
  ⟨by decide,
   (c7_find_closest_matches.1 c7rows (some "ACD") "ACD" (some 1)).1 _ (by decide)⟩

/-- C10. Duplicate trimmed queries collapse in `findClosestMatches`: when the
same trimmed sequence occurs at two positions `i < j`, the result map holds
exactly one entry for it; every candidate of that entry reports as original
query `queries.original[indexOf]`, where `indexOf` is the first position of
the sequence in the trimmed list (characterized below); and that first
position is at most `i`. -/
theorem c10_duplicate_trimmed_queries (records : List MP.RefRow)
    (orig trimmed : List String) (maxLD : Option Nat) (i j : Nat) (s : String)
    (hij : i < j) (hi : trimmed.get? i = some s) (hj : trimmed.get? j = some s) :
    ((MP.findClosestMatches records orig trimmed maxLD).map Prod.fst).count s = 1 ∧
    (∀ cands, mapGet s (MP.findClosestMatches records orig trimmed maxLD) = some cands →
        ∀ c ∈ cands, c.Original_Query_Seq = orig.get? (MP.idxOf s trimmed)) ∧
    trimmed.get? (MP.idxOf s trimmed) = some s ∧
    (∀ k, k < MP.idxOf s trimmed → trimmed.get? k ≠ some s) ∧
    MP.idxOf s trimmed ≤ i := by
  have hs : s ∈ trimmed := List.get?_mem hi
  have hget : mapGet s (MP.findClosestMatches records orig trimmed maxLD) =
      some (MP.matchesFor records (orig.get? (MP.idxOf s trimmed)) s maxLD) :=
    mapGet_fold_mem (fun q => MP.matchesFor records (orig.get? (MP.idxOf q trimmed)) q maxLD)
      hs []
  refine ⟨?_, ?_, idxOf_get? hs, fun k hk => idxOf_lt_ne hk, idxOf_le hi⟩
  · have hnodup : ((MP.findClosestMatches records orig trimmed maxLD).map Prod.fst).Nodup :=
      keys_fold_nodup _ trimmed [] (by simp)
    have hmem : s ∈ (MP.findClosestMatches records orig trimmed maxLD).map Prod.fst :=
      mapGet_some_mem_keys hget
    exact List.count_eq_one_of_mem hnodup hmem
  · intro cands hcands
    rw [hget] at hcands
    injection hcands with hcands
    subst hcands
    intro c hc
    rw [MP.matchesFor, mem_sortOrd] at hc
    rcases List.mem_filterMap.mp hc with ⟨row, _, hrow⟩
    exact (candFor_some hrow).1

/-- Witness for C10: with the trimmed query `Q` at positions 0 and 1, the
result map holds exactly one entry for `Q`. -/
theorem c10_duplicate_trimmed_queries_witness :
    ((MP.findClosestMatches c10rows c10orig c10trimmed none).map Prod.fst).count "Q" = 1 :=
  (c10_duplicate_trimmed_queries c10rows c10orig c10trimmed none 0 1 "Q"
    (by decide) (by decide) (by decide)).1

/-! ### Lemmas about the frequency counter. -/

theorem countDesc_total (a b : P0.Assoc × Nat) :
    P0.countDesc a b = true ∨ P0.countDesc b a = true := by
  simp only [P0.countDesc, decide_eq_true_eq]
  exact Nat.le_total _ _

theorem countDesc_trans (a b c : P0.Assoc × Nat) (h1 : P0.countDesc a b = true)
    (h2 : P0.countDesc b c = true) : P0.countDesc a c = true := by
  simp only [P0.countDesc, decide_eq_true_eq] at h1 h2 ⊢
  exact Nat.le_trans h2 h1

theorem tallyAdd_countsum (k : String) (a : P0.Assoc) (m : List (String × P0.Assoc × Nat)) :
    ((P0.tallyAdd k a m).map (fun e => e.2.2)).sum = (m.map (fun e => e.2.2)).sum + 1 := by
  induction m with
  | nil => simp [P0.tallyAdd]
  | cons e rest ih =>
      by_cases h : e.1 = k
      · simp only [P0.tallyAdd, h, if_true, List.map_cons, List.sum_cons]
        omega
      · simp only [P0.tallyAdd, h, if_false, List.map_cons, List.sum_cons, ih]
        omega

theorem tally_countsum (combos : List (String × P0.Assoc)) :
    ((P0.tally combos).map (fun e => e.2.2)).sum = combos.length := by
  suffices h : ∀ m : List (String × P0.Assoc × Nat),
      ((combos.foldl (fun m c => P0.tallyAdd c.1 c.2 m) m).map (fun e => e.2.2)).sum =
        (m.map (fun e => e.2.2)).sum + combos.length by
    simpa using h []
  induction combos with
  | nil => intro m; simp
  | cons c cs ih =>
      intro m
      rw [List.foldl_cons, ih, tallyAdd_countsum]
      simp only [List.length_cons]
      omega

theorem totalOf_eq_length (combos : List (String × P0.Assoc)) :
    P0.totalOf combos = combos.length := by
  rw [P0.totalOf, P0.valsOf, List.map_map]
  exact tally_countsum combos

/-- C6. Frequency Counter: the finalized rows' counts sum to `totalCount`
(which equals the number of counted combinations); every row records that
total and `Frequency = Count / Total_Count` exactly; the rows are sorted
non-increasing by count; and restricted to any fixed count value the row
order equals the first-occurrence (insertion) order of the tally — i.e. the
descending sort is stable. -/
theorem c6_frequency_counter (combos : List (String × P0.Assoc)) :
    ((P0.finalizeCounts combos).map P0.CountRow.Count).sum = P0.totalOf combos ∧
    P0.totalOf combos = combos.length ∧
    (∀ r ∈ P0.finalizeCounts combos,
        r.Total_Count = P0.totalOf combos ∧
        r.Frequency = (r.Count : Rat) / (r.Total_Count : Rat)) ∧
    (P0.finalizeCounts combos).Pairwise (fun a b => b.Count ≤ a.Count) ∧
    (∀ n, (P0.finalizeCounts combos).filter (fun r => decide (r.Count = n)) =
        ((P0.valsOf combos).filter (fun v => decide (v.2 = n))).map
          (P0.mkRow (P0.totalOf combos))) := by
  refine ⟨?_, totalOf_eq_length combos, ?_, ?_, ?_⟩
  · rw [P0.finalizeCounts, List.map_map]
    have h1 : (P0.CountRow.Count ∘ P0.mkRow (P0.totalOf combos)) =
        (Prod.snd : P0.Assoc × Nat → Nat) := rfl
    rw [h1, ((sortOrd_perm P0.countDesc (P0.valsOf combos)).map Prod.snd).sum_eq]
    rfl
  · intro r hr
    rw [P0.finalizeCounts] at hr
    rcases List.mem_map.mp hr with ⟨v, _, rfl⟩
    exact ⟨rfl, rfl⟩
  · rw [P0.finalizeCounts]
    refine List.pairwise_map.mpr ?_
    exact (pairwise_sortOrd P0.countDesc countDesc_total countDesc_trans _).imp
      (fun h => by simpa [P0.countDesc, decide_eq_true_eq] using h)
  · intro n
    rw [P0.finalizeCounts, List.filter_map]
    have h1 : ((fun r : P0.CountRow => decide (r.Count = n)) ∘
        P0.mkRow (P0.totalOf combos)) = (fun v : P0.Assoc × Nat => decide (v.2 = n)) := rfl
    rw [h1, filter_sortOrd P0.countDesc _ ?_ _]
    intro x y hx hxy
    simp only [P0.countDesc, decide_eq_true_eq, decide_eq_false_iff_not] at hx hxy ⊢
    omega

/-- Witness for C6: the row counted twice for key `k1` is a member of the
finalized output, records the total 3, and has frequency `Count/Total`. -/
theorem c6_frequency_counter_witness :
    P0.mkRow (P0.totalOf c6combos) ([("A", "x")], 2) ∈ P0.finalizeCounts c6combos ∧
      (P0.mkRow (P0.totalOf c6combos) ([("A", "x")], 2)).Total_Count = P0.totalOf c6combos ∧
      (P0.mkRow (P0.totalOf c6combos) ([("A", "x")], 2)).Frequency =
        ((P0.mkRow (P0.totalOf c6combos) ([("A", "x")], 2)).Count : Rat) /
          ((P0.mkRow (P0.totalOf c6combos) ([("A", "x")], 2)).Total_Count : Rat) :=
  have hmem : P0.mkRow (P0.totalOf c6combos) ([("A", "x")], 2) ∈ P0.finalizeCounts c6combos :=
    List.mem_map_of_mem _ (by decide)
  ⟨hmem, (c6_frequency_counter c6combos).2.2.1 _ hmem⟩

/-! ### NaN comparisons and the main.js parser. -/

theorem jsLt_none_right (x : Option Rat) : MJ.jsLt x none = false := by
  cases x <;> rfl

/-- C9. NaN leniency: a data line (not a comment, nonempty after trimming,
with at least 23 whitespace-separated fields) whose score field does not
parse yields a record whose score is NaN (`none`) — the line is kept, not
rejected; and in the grouping loop a NaN-scored record never replaces an
incumbent, being stored only when it is the first record for its target
(since `entryForTarget.score < entry.score` is false whenever either side
is NaN). -/
theorem c9_nan_leniency :
    (∀ l : List Char, startsWithHash l = false → ¬ trimL l = [] →
        23 ≤ (splitWs (trimL l)).length →
        jsParseFloat ((splitWs (trimL l)).getD 7 []) = none →
        ∃ e, MJ.parseLine l = some e ∧ e.score = none) ∧
    (∀ (m : List (String × MJ.Entry)) (e : MJ.Entry), e.score = none →
        MJ.step m e =
          (match mapGet e.target_name m with
           | none => mapSet e.target_name e m
           | some _ => m)) := by
  constructor
  · intro l h1 h2 h3 h4
    refine ⟨⟨⟨(splitWs (trimL l)).getD 0 []⟩, jsParseFloat ((splitWs (trimL l)).getD 7 []),
      jsParseFloat ((splitWs (trimL l)).getD 6 []), jsParseInt ((splitWs (trimL l)).getD 17 []),
      jsParseInt ((splitWs (trimL l)).getD 18 [])⟩, ?_, h4⟩
    simp only [MJ.parseLine]
    rw [if_neg (by simp [h1]), if_neg h2, if_neg (by omega)]
  · intro m e he
    simp only [MJ.step]
    cases hm : mapGet e.target_name m with
    | none => simp [hm]
    | some inc => simp [hm, he, jsLt_none_right]

/-- Witness for C9: the concrete 23-field line with score field `xx` parses
to a NaN-scored record, and a NaN-scored record for target `t9` does not
replace the stored incumbent. -/
theorem c9_nan_leniency_witness :
    (∃ e, MJ.parseLine c9line = some e ∧ e.score = none) ∧
      MJ.step [("t9", c9inc)] c9nan = [("t9", c9inc)] := by
  refine ⟨c9_nan_leniency.1 c9line (by decide) (by decide) (by decide) (by decide), ?_⟩
  rw [c9_nan_leniency.2 [("t9", c9inc)] c9nan rfl]
  decide

/-! ### The cross-model aggregator and combination keys. -/

theorem combosOf_key {seqMap : List (String × List P0.SeqEntry)} {k : String} {a : P0.Assoc}
    (h : (k, a) ∈ P0.combosOf seqMap) : k = P0.seqKey (P0.allModelsOf seqMap) a := by
  rw [P0.combosOf] at h
  rcases List.mem_flatten.mp h with ⟨sub, hsub, hmem⟩
  rcases List.mem_map.mp hsub with ⟨p, _, rfl⟩
  rcases List.mem_map.mp hmem with ⟨a', _, heq⟩
  cases heq
  rfl

/-- C2. Cross-Model Aggregator gap in part_000 `countSeqs`: in the failing
run two models `A` and `B` are observed (`allModels` finishes as
`["A", "B"]`), read `r1` has no sequence for model `B`, and yet `r1`
contributes a counted SequenceCombination — because `missingModels` is
snapshotted from `allModels` before later targets contribute `B`, the
full-coverage requirement is only checked against models discovered so far. -/
theorem c2_cross_model_gap :
    P0.allModelsOf c2seqMap = ["A", "B"] ∧
      (mapGet "B" [("A", "s1")] : Option String) = none ∧
      P0.mkRow (P0.totalOf (P0.combosOf c2seqMap)) ([("A", "s1")], 1) ∈
        P0.countSeqs c2seqMap :=
  ⟨by decide, by decide, List.mem_map_of_mem _ (by decide)⟩

/-- C3 counterexample: the same (read, batch) pass data delivered in the two
possible model orders produces different combination-key strings, because the
key is built from the insertion order of the `allModels` set. -/
theorem c3_counterexample_order_dependent_keys :
    P0.keysOf c3seqMapX = ["A:sa|B:sb"] ∧
      P0.keysOf c3seqMapY = ["B:sb|A:sa"] ∧
      P0.keysOf c3seqMapX ≠ P0.keysOf c3seqMapY :=
  ⟨by decide, by decide, by decide⟩

/-- C3 (amended). Within a single run the combination key of every counted
read is built from the one run-wide model-name list (`allModels` in its
insertion order): each key equals `seqKey` of that list applied to the
read's assignments, so two reads whose per-model assignments agree on every
run-wide model receive the identical key string, regardless of the order in
which their entries were recorded. -/
theorem c3_key_fixed_order_within_run (seqMap : List (String × List P0.SeqEntry))
    (k1 k2 : String) (a1 a2 : P0.Assoc)
    (h1 : (k1, a1) ∈ P0.combosOf seqMap) (h2 : (k2, a2) ∈ P0.combosOf seqMap)
    (h : ∀ n ∈ P0.allModelsOf seqMap, P0.jsGetA a1 n = P0.jsGetA a2 n) :
    k1 = P0.seqKey (P0.allModelsOf seqMap) a1 ∧ k1 = k2 := by
  have e1 := combosOf_key h1
  have e2 := combosOf_key h2
  refine ⟨e1, ?_⟩
  rw [e1, e2, P0.seqKey, P0.seqKey]
  exact congrArg (String.intercalate "|")
    (List.map_congr_left (fun n hn => by rw [h n hn]))

/-- Witness for C3: in the two-read run the first read's key is `seqKey` of
the run's model list, and both reads (with equal assignments recorded in
different orders) receive the same key. -/
theorem c3_key_fixed_order_within_run_witness :
    ("A:sa|B:sb" : String) =
        P0.seqKey (P0.allModelsOf c3seqMapW) [("A", "sa"), ("B", "sb")] ∧
      ("A:sa|B:sb" : String) = "A:sa|B:sb" :=
  c3_key_fixed_order_within_run c3seqMapW "A:sa|B:sb" "A:sa|B:sb"
    [("A", "sa"), ("B", "sb")] [("B", "sb"), ("A", "sa")]
    (by decide) (by decide) (by decide)

/-! ### Idempotence of the split-based canonicalization. -/

theorem frameSplitHead_append (l : List Char) : ∃ t, frameSplitHead l ++ t = l := by
  induction l with
  | nil => exact ⟨[], rfl⟩
  | cons c cs ih =>
      by_cases h : (c :: cs).take 7 = framePat
      · exact ⟨c :: cs, by simp [frameSplitHead, h]⟩
      · rcases ih with ⟨t, ht⟩
        refine ⟨t, ?_⟩
        simp only [frameSplitHead, h, if_false, List.cons_append]
        exact congrArg (List.cons c) ht

theorem frameSplitHead_idem (l : List Char) :
    frameSplitHead (frameSplitHead l) = frameSplitHead l := by
  induction l with
  | nil => rfl
  | cons c cs ih =>
      by_cases h : (c :: cs).take 7 = framePat
      · simp [frameSplitHead, h]
      · have hstep : frameSplitHead (c :: cs) = c :: frameSplitHead cs := by
          rw [frameSplitHead, if_neg h]
        rw [hstep]
        have hcond : ¬ ((c :: frameSplitHead cs).take 7 = framePat) := by
          intro hc
          apply h
          rcases frameSplitHead_append cs with ⟨t, ht⟩
          have hfp : framePat = '_' :: "frame=".toList := rfl
          rw [hfp, List.take_succ_cons] at hc
          injection hc with hc1 hc2
          have hlen : 6 ≤ (frameSplitHead cs).length := by
            have h6 := congrArg List.length hc2
            simp only [List.length_take] at h6
            have : ("frame=".toList).length = 6 := rfl
            omega
          have htake : cs.take 6 = (frameSplitHead cs).take 6 := by
            conv_lhs => rw [← ht]
            rw [List.take_append_of_le_length hlen]
          rw [hfp, List.take_succ_cons, hc1, htake, hc2]
        rw [frameSplitHead, if_neg hcond, ih]

/-- C8 counterexample: the regex-based canonicalization of `mergeData`
(removal of the first `_frame=<int>` only) is not idempotent: on
`r_frame=1_frame=2` one application yields `r_frame=2` and a second yields
`r`. -/
theorem c8_counterexample_regex_not_idempotent :
    canonMerge (canonMerge "r_frame=1_frame=2") ≠ canonMerge "r_frame=1_frame=2" ∧
      canonMerge "r_frame=1_frame=2" = "r_frame=2" ∧
      canonMerge "r_frame=2" = "r" :=
  ⟨by decide, by decide, by decide⟩

/-- C8 (amended). The split-based canonicalization of
`extractBestHMMHits` in matches_pipeline.js — the prefix before the first
`_frame=` — is idempotent on every raw target identifier (the regex-based
variant of `mergeData` is not, as the counterexample shows). -/
theorem c8_split_canonicalization_idempotent (s : String) :
    canonSplit (canonSplit s) = canonSplit s :=
  congrArg String.mk (frameSplitHead_idem s.toList)
